import Mathlib

/-!
Verification development for the scanpipe core models (scanpipe/models.py):
Project workspace management, Run records, CodebaseResource scan-field
merging, DiscoveredPackage creation, and the error-capturing save mixin.

Python values that flow through the model layer (JSON-ish data) are embedded
as the inductive type Value below; Python truthiness is Value.truthy.
Stateful operations (filesystem, database tables) are embedded as explicit
state passing; code that can raise is embedded with Except or an explicit
result type.
-/

/-- Embedding of the Python values handled by the scanpipe model layer:
None, strings, integers, lists and string-keyed dictionaries. -/
inductive Value where
  | pynone : Value
  | str : String → Value
  | int : Int → Value
  | list : List Value → Value
  | dict : List (String × Value) → Value
deriving Repr

/-- Python truthiness for embedded values: None, empty string, zero and
empty containers are falsy, everything else is truthy. -/
def Value.truthy : Value → Bool
  | .pynone => false
  | .str s => !(s == "")
  | .int n => !(n == 0)
  | .list l => !l.isEmpty
  | .dict l => !l.isEmpty

/-- Result of running a piece of Python code that can raise: either a normal
return value or an uncaught exception identified by its class name. -/
inductive PyResult (α : Type) where
  | ok : α → PyResult α
  | exn : String → PyResult α
deriving Repr, DecidableEq

/-! ### Run.get_run_id (scanpipe/models.py lines 302-310)

The method compiles the regular expression "run-id [0-9]+" and calls
search(...).group() on the task output. re.search returns None when the
pattern is absent, and None.group() raises AttributeError. -/

/-- Match of the regular expression "run-id [0-9]+" anchored at the start of
the character list: the literal token followed by a maximal non-empty run of
ASCII digits. Returns the matched characters. -/
def matchRunIdAt (l : List Char) : Option (List Char) :=
  match l with
  | 'r' :: 'u' :: 'n' :: '-' :: 'i' :: 'd' :: ' ' :: rest =>
      let ds := rest.takeWhile Char.isDigit
      if ds.isEmpty then none else some ('r' :: 'u' :: 'n' :: '-' :: 'i' :: 'd' :: ' ' :: ds)
  | _ => none

/-- Leftmost match of "run-id [0-9]+" in the character list, as performed by
re.search: try each start position from the left. -/
def searchRunId : List Char → Option (List Char)
  | [] => none
  | c :: rest =>
      match matchRunIdAt (c :: rest) with
      | some m => some m
      | none => searchRunId rest

/-- Helper for pySplit: accumulate the current token (reversed) while
scanning the characters. -/
def pySplitAux (cur : List Char) : List Char → List String
  | [] => if cur.isEmpty then [] else [String.mk cur.reverse]
  | c :: rest =>
      if c.isWhitespace then
        if cur.isEmpty then pySplitAux [] rest
        else String.mk cur.reverse :: pySplitAux [] rest
      else pySplitAux (c :: cur) rest

/-- Python str.split() with no argument: split on runs of whitespace,
dropping empty pieces. -/
def pySplit (s : String) : List String :=
  pySplitAux [] s.data

/-- Embedding of Run.get_run_id: if the task output is truthy, search for
the pattern and call .group() on the result (raising AttributeError when the
search returned None), then return the last whitespace-separated token of
the matched string; a falsy task output falls through and returns None. -/
def get_run_id (task_output : String) : PyResult (Option String) :=
  if task_output == "" then
    .ok none
  else
    match searchRunId task_output.data with
    | none => .exn "AttributeError"
    | some m =>
        let run_id_string := String.mk m
        if run_id_string == "" then
          .ok none
        else
          .ok (some ((pySplit run_id_string).getLastD ""))

/-! ### Project.clear_tmp_directory (scanpipe/models.py lines 137-144)

The tmp/ directory is embedded as Option (List String): none when the
directory is absent, some entries when it exists with the given contents. -/

/-- Embedding of shutil.rmtree(path, ignore_errors=True) on the tmp/
directory: the directory and all its contents are removed; a missing
directory is ignored rather than raised. -/
def rmtree_ignore_errors : Option (List String) → Option (List String) :=
  fun _ => none

/-- Embedding of Path.mkdir(exist_ok=True): create the directory empty when
absent, leave it untouched when it already exists. -/
def mkdir_exist_ok : Option (List String) → Option (List String)
  | none => some []
  | some entries => some entries

/-- Embedding of Project.clear_tmp_directory: rmtree with errors ignored,
then mkdir with exist_ok. -/
def clear_tmp_directory (tmp : Option (List String)) : Option (List String) :=
  mkdir_exist_ok (rmtree_ignore_errors tmp)

/-! ### SaveProjectErrorMixin.save (scanpipe/models.py lines 244-254) -/

/-- A raised Python exception: its message (str(e)) and its traceback frames
(the list formatted by traceback.format_tb). -/
structure PyException where
  message : String
  frames : List String
deriving Repr, DecidableEq

/-- A ProjectError row (scanpipe/models.py lines 220-231): the owning
project, the failing model class name, the field snapshot of the failing
instance, the exception message and the formatted traceback. -/
structure ProjectErrorRec where
  project : String
  model : String
  details : List (String × Value)
  message : String
  traceback : String
deriving Repr

/-- Embedding of "".join(traceback.format_tb(e.__traceback__)). -/
def format_tb (frames : List String) : String :=
  String.join frames

/-- Embedding of SaveProjectErrorMixin.save: run the underlying model save;
on any exception, append a ProjectError row built from the instance to the
project error table instead of propagating, and return normally. The
instance is given by its project id, class name and field snapshot
(model_to_dict); the underlying save outcome is passed explicitly. -/
def save_with_error_capture (projectId className : String)
    (snapshot : List (String × Value)) (superSave : Except PyException Unit)
    (errors : List ProjectErrorRec) :
    Except PyException Unit × List ProjectErrorRec :=
  match superSave with
  | .ok _ => (.ok (), errors)
  | .error e =>
      (.ok (), errors ++ [⟨projectId, className, snapshot, e.message, format_tb e.frames⟩])

/-! ### Project.get_next_run (scanpipe/models.py lines 191-193) -/

/-- A Run row restricted to the columns get_next_run touches: primary key,
owning project, creation time and the optional worker task id. -/
structure RunRec where
  uuid : Nat
  project : Nat
  created_date : Nat
  task_id : Option Nat
deriving Repr, DecidableEq

/-- Embedding of QuerySet.earliest("created_date"): the first row attaining
the minimal creation time, or none on an empty set (the ObjectDoesNotExist
case, suppressed by the caller). -/
def earliestByCreated : List RunRec → Option RunRec
  | [] => none
  | r :: rest =>
      match earliestByCreated rest with
      | none => some r
      | some b => if r.created_date ≤ b.created_date then some r else some b

/-- Embedding of Project.get_next_run: among the project's runs, filter the
ones with no task id assigned and return the earliest-created, or none when
that set is empty. The run table is passed explicitly. -/
def get_next_run (projectId : Nat) (runs : List RunRec) : Option RunRec :=
  earliestByCreated ((runs.filter (fun r => r.project == projectId)).filter
    (fun r => r.task_id.isNone))

/-! ### CodebaseResource.set_scan_results (scanpipe/models.py lines 469-476) -/

/-- The seven scan fields declared by ScanFieldsModelMixin
(scanpipe/models.py lines 324-367). -/
def scanFieldNames : List String :=
  ["copyrights", "holders", "authors", "licenses", "license_expressions", "emails", "urls"]

/-- Field names of the CodebaseResource model, as returned by
model_fields() (every field of the model, scanpipe/models.py lines
215-217): the ProjectRelatedModel project link, the ScanFieldsModelMixin
scan fields, the fields declared on CodebaseResource itself, the
discovered_packages relation, and the path field. The path field comes
from AbstractResource, which is not part of the provided sources; it is
modelled from the spec (resource identity is the (project, path) pair). -/
def codebaseResourceFields : List String :=
  ["project", "path",
   "copyrights", "holders", "authors", "licenses", "license_expressions", "emails", "urls",
   "rootfs_path", "status", "type", "extra_data", "name", "extension",
   "programming_language", "mime_type", "file_type", "discovered_packages"]

/-- Embedding of Python setattr on a resource viewed as a mapping from field
name to value. -/
def setattr (resource : String → Value) (name : String) (v : Value) : String → Value :=
  fun n => if n = name then v else resource n

/-- The loop body of set_scan_results: iterate the scan-result items in
order and setattr every entry whose value is truthy and whose key is a
model field. -/
def apply_scan_results (resource : String → Value) :
    List (String × Value) → (String → Value)
  | [] => resource
  | (k, v) :: rest =>
      apply_scan_results
        (if v.truthy && decide (k ∈ codebaseResourceFields) then setattr resource k v
         else resource)
        rest

/-- Embedding of CodebaseResource.set_scan_results: apply the items, then
save when the save flag is set; the returned boolean records whether
self.save() was invoked. -/
def set_scan_results (resource : String → Value) (scan_results : List (String × Value))
    (save : Bool) : (String → Value) × Bool :=
  (apply_scan_results resource scan_results, save)

/-! ### Project.save and the work directory (scanpipe/models.py lines 46-115)

The persistent world is embedded as a project table (rows with a unique
name constraint) together with the set of directories existing on disk. -/

/-- Workspace root location. Modelled from the spec: WORKSPACE_LOCATION
comes from the scancodeio settings module, which is not part of the
provided sources; the spec fixes only the layout
workspace-root/projects/name-shortid. The concrete value is immaterial. -/
def WORKSPACE_LOCATION : String := "/workspace"

/-- A Project row restricted to the columns save() touches: primary key
uuid (as its string form), unique name, and the work directory path. -/
structure ProjectRec where
  uuid : String
  name : String
  work_directory : String
deriving Repr, DecidableEq

/-- Embedding of UUIDPKModel.short_uuid: the first eight characters of the
string form of the uuid. -/
def shortUuid (u : String) : String :=
  String.mk (u.data.take 8)

/-- Embedding of get_project_work_directory (scanpipe/models.py lines
46-50). -/
def get_project_work_directory (p : ProjectRec) : String :=
  WORKSPACE_LOCATION ++ "/projects/" ++ p.name ++ "-" ++ shortUuid p.uuid

/-- The four work subdirectories (Project.WORK_DIRECTORIES). -/
def WORK_DIRECTORIES : List String := ["input", "output", "codebase", "tmp"]

/-- Database plus filesystem state: the project table and the set of
directories existing on disk. -/
structure WorldState where
  db : List ProjectRec
  fs : List String
deriving Repr, DecidableEq

/-- Embedding of Path.mkdir(parents=True, exist_ok=True) at the granularity
of whole directory paths: add the path when absent, no error when present
(intermediate parents are not tracked separately). -/
def mkdir_parents_exist_ok (path : String) (fs : List String) : List String :=
  if path ∈ fs then fs else fs ++ [path]

/-- Embedding of Project.setup_work_directory: create each of the four
subdirectories under the work directory, skipping existing ones. -/
def setup_work_directory (workDir : String) (fs : List String) : List String :=
  WORK_DIRECTORIES.foldl (fun acc sub => mkdir_parents_exist_ok (workDir ++ "/" ++ sub) acc) fs

/-- Embedding of the Django-level insert performed by super().save(): the
unique constraint on Project.name makes the insert fail with IntegrityError
when a row with the same name exists, leaving the table unchanged;
otherwise the row is appended. -/
def django_insert_project (p : ProjectRec) (db : List ProjectRec) :
    Except String (List ProjectRec) :=
  if db.any (fun q => q.name == p.name) then .error "IntegrityError"
  else .ok (db ++ [p])

/-- Embedding of Project.save (scanpipe/models.py lines 104-108): when the
work directory is not set yet, derive it from the name and uuid and create
the directory structure on disk, and only then attempt the database insert.
Returns the (possibly updated) instance, the new world state and the
outcome. -/
def project_save (p : ProjectRec) (st : WorldState) :
    ProjectRec × WorldState × Except String Unit :=
  let p2 := if p.work_directory == "" then
      { p with work_directory := get_project_work_directory p } else p
  let fs2 := if p.work_directory == "" then
      setup_work_directory (get_project_work_directory p) st.fs else st.fs
  match django_insert_project p2 st.db with
  | .ok db2 => (p2, ⟨db2, fs2⟩, .ok ())
  | .error e => (p2, ⟨st.db, fs2⟩, .error e)

/-! ### Qualifier normalization (packageurl.normalize_qualifiers)

Modelled from the spec: the packageurl library is an external dependency
whose source is not part of the provided files. Section 4.2 of the spec
describes the normalization used by createPackageFromData: qualifier keys
are lower-cased percent-decoded tokens, re-encoded to a canonical string
form; qualifiers with empty values are dropped; the input is either a
key-value mapping or an already-encoded string of the form
key=value pairs joined by ampersands; a falsy input normalizes to None. -/

/-- Value of an ASCII hexadecimal digit. -/
def hexVal (c : Char) : Option Nat :=
  if '0' ≤ c ∧ c ≤ '9' then some (c.toNat - '0'.toNat)
  else if 'a' ≤ c ∧ c ≤ 'f' then some (c.toNat - 'a'.toNat + 10)
  else if 'A' ≤ c ∧ c ≤ 'F' then some (c.toNat - 'A'.toNat + 10)
  else none

/-- Percent-decoding of a character list: a percent sign followed by two
hexadecimal digits becomes the encoded character; anything else is kept. -/
def percentDecodeFuel : Nat → List Char → List Char
  | _, [] => []
  | 0, l => l
  | fuel + 1, c :: rest =>
      if c = '%' then
        match rest with
        | a :: b :: rest2 =>
            match hexVal a, hexVal b with
            | some x, some y => Char.ofNat (16 * x + y) :: percentDecodeFuel fuel rest2
            | _, _ => c :: percentDecodeFuel fuel rest
        | _ => c :: percentDecodeFuel fuel rest
      else c :: percentDecodeFuel fuel rest

/-- Percent-decoding driver: the fuel starts at the list length, which
bounds the recursion (every step consumes at least one character). -/
def percentDecodeChars (l : List Char) : List Char :=
  percentDecodeFuel l.length l

/-- Percent-decoding of a string. -/
def percentDecode (s : String) : String :=
  String.mk (percentDecodeChars s.data)

/-- Key normalization: percent-decode the token, then lower-case it. -/
def normKey (k : String) : String :=
  String.mk ((percentDecode k).data.map Char.toLower)

/-- Split a character list on a separator character (every occurrence,
keeping empty pieces, like str.split with an explicit separator). -/
def splitOnChar (sep : Char) : List Char → List (List Char)
  | [] => [[]]
  | c :: rest =>
      if c = sep then [] :: splitOnChar sep rest
      else
        match splitOnChar sep rest with
        | [] => [[c]]
        | g :: gs => (c :: g) :: gs

/-- Join character-list pieces with a separator character. -/
def joinSep (sep : Char) : List (List Char) → List Char
  | [] => []
  | [x] => x
  | x :: y :: rest => x ++ sep :: joinSep sep (y :: rest)

/-- Parse an encoded qualifiers string into key-value pairs: split on
ampersands, then split each piece at its first equals sign (a piece with no
equals sign yields an empty value and is dropped later). -/
def parsePairs (s : String) : List (String × String) :=
  (splitOnChar '&' s.data).map (fun piece =>
    match splitOnChar '=' piece with
    | [] => ("", "")
    | k :: rest => (String.mk k, String.mk (joinSep '=' rest)))

/-- Encode key-value pairs to the canonical string form: key=value pieces
joined by ampersands. -/
def encodePairs (ps : List (String × String)) : String :=
  String.mk (joinSep '&' (ps.map (fun p => p.1.data ++ '=' :: p.2.data)))

/-- Normalize each pair: normalize the key, keep the value; drop pairs
whose key or value is empty. -/
def normPairs (ps : List (String × String)) : List (String × String) :=
  (ps.map (fun p => (normKey p.1, p.2))).filter
    (fun p => !(p.1 == "") && !(p.2 == ""))

/-- Whether a key occurs in an association list of qualifiers. -/
def hasKey (k : String) : List (String × String) → Bool
  | [] => false
  | q :: rest => if q.1 = k then true else hasKey k rest

/-- Dictionary insertion: replace the value at an existing key, else append
(Python dict assignment semantics, later occurrence wins). -/
def upsert (acc : List (String × String)) (p : String × String) :
    List (String × String) :=
  if hasKey p.1 acc then
    acc.map (fun q => if q.1 = p.1 then (q.1, p.2) else q)
  else acc ++ [p]

/-- Collapse duplicate keys with dictionary semantics. -/
def dedupPairs (ps : List (String × String)) : List (String × String) :=
  ps.foldl upsert []

/-- Sorting relation on qualifier pairs: compare keys. -/
def keyLe (p q : String × String) : Prop := p.1 ≤ q.1

instance : DecidableRel keyLe :=
  fun p q => inferInstanceAs (Decidable (p.1 ≤ q.1))

instance : IsTotal (String × String) keyLe :=
  ⟨fun p q => le_total p.1 q.1⟩

instance : IsTrans (String × String) keyLe :=
  ⟨fun _ _ _ h h2 => le_trans h h2⟩

/-- A qualifiers input: either a key-value mapping or an encoded string. -/
inductive Qualifiers where
  | dict : List (String × String) → Qualifiers
  | str : String → Qualifiers
deriving Repr, DecidableEq

/-- Python truthiness of a qualifiers input. -/
def Qualifiers.truthy : Qualifiers → Bool
  | .dict ps => !ps.isEmpty
  | .str s => !(s == "")

/-- Modelled from the spec: packageurl.normalize_qualifiers with
encode=True. A falsy input yields None; otherwise the input is brought to
key-value pairs (parsing the encoded-string form), keys are lower-cased
percent-decoded, pairs with empty keys or values are dropped, duplicate
keys are collapsed with dictionary semantics, the pairs are sorted by key,
and the result is re-encoded to the canonical string form. -/
def normalize_qualifiers (q : Qualifiers) : Option String :=
  if q.truthy then
    let pairs := match q with
      | .dict ps => ps
      | .str s => parsePairs s
    some (encodePairs (List.insertionSort keyLe (dedupPairs (normPairs pairs))))
  else none

/-! ### DiscoveredPackage.create_from_data (scanpipe/models.py lines 496-514) -/

/-- Field names of the DiscoveredPackage model, as returned by
model_fields(): the relations and overrides declared in
scanpipe/models.py lines 479-488, plus the fields of AbstractPackage.
AbstractPackage lives in scanpipe/packagedb_models.py, which is not part of
the provided sources; its fields are modelled from the spec (package-URL
components plus declared license and copyright metadata, section 3). -/
def discoveredPackageFields : List String :=
  ["project", "uuid", "codebase_resources", "missing_resources", "modified_resources",
   "keywords", "source_packages",
   "type", "namespace", "name", "version", "qualifiers", "subpath",
   "primary_language", "description", "release_date", "parties", "homepage_url",
   "download_url", "size", "sha1", "md5", "bug_tracking_url", "code_view_url",
   "vcs_url", "copyright", "license_expression", "declared_license", "notice_text"]

/-- Lookup in a Python dictionary embedded as an association list (first
occurrence wins, matching dict.get). -/
def dict_get : List (String × Value) → String → Option Value
  | [], _ => none
  | (k, v) :: rest, key => if k = key then some v else dict_get rest key

/-- Assignment in a Python dictionary embedded as an association list:
replace the value at the key in place, else append. -/
def dict_set : List (String × Value) → String → Value → List (String × Value)
  | [], key, v => [(key, v)]
  | (k, w) :: rest, key, v =>
      if k = key then (k, v) :: rest else (k, w) :: dict_set rest key v

/-- Bridge from an embedded Python value to a qualifiers input: an encoded
string stays a string, a dictionary keeps its string-valued entries. Other
shapes do not occur in the scan data handled here. -/
def value_to_qualifiers : Value → Qualifiers
  | .str s => .str s
  | .dict l => .dict (l.map (fun kv =>
      (kv.1, match kv.2 with | .str s => s | _ => "")))
  | _ => .dict []

/-- The value stored back into package_data for the qualifiers key: the
normalized encoded string, or None when normalization yields none. -/
def normalize_qualifiers_value (v : Value) : Value :=
  match normalize_qualifiers (value_to_qualifiers v) with
  | some s => .str s
  | none => .pynone

/-- A DiscoveredPackage row: a fresh primary key, the owning project and
the cleaned field assignments passed to objects.create. -/
structure PackageRec where
  uuid : Nat
  project : String
  fields : List (String × Value)
deriving Repr

/-- Embedding of DiscoveredPackage.create_from_data: normalize the
qualifiers entry in place when present and truthy, keep exactly the
entries whose key is a model field and whose value is truthy, and insert a
new row (no uniqueness check; the primary key is fresh). Returns the
mutated package_data mapping, the created row and the new table. -/
def create_from_data (project : String) (package_data : List (String × Value))
    (db : List PackageRec) :
    List (String × Value) × PackageRec × List PackageRec :=
  let data2 := match dict_get package_data "qualifiers" with
    | some q =>
        if q.truthy then dict_set package_data "qualifiers" (normalize_qualifiers_value q)
        else package_data
    | none => package_data
  let cleaned := data2.filter
    (fun kv => decide (kv.1 ∈ discoveredPackageFields) && kv.2.truthy)
  let pkg : PackageRec := ⟨db.length, project, cleaned⟩
  (data2, pkg, db ++ [pkg])

/-! ## Claims -/

/-- C1: Run.get_run_id on output containing the token returns the digits;
on empty (falsy) output it returns None; but on non-empty output without
the pattern, re.search returns None and the unconditional .group() call
raises AttributeError instead of returning nothing, contradicting the
documented best-effort contract (the dead truthiness guard on the matched
string shows the intended fall-through). -/
theorem get_run_id_eval :
    get_run_id "start\nrun-id 4821\nend" = PyResult.ok (some "4821")
    ∧ get_run_id "" = PyResult.ok none
    ∧ get_run_id "no identifier here" = PyResult.exn "AttributeError" :=
  ⟨rfl, rfl, rfl⟩

/-- C8: Project.clear_tmp_directory is total over the embedded tmp/
directory states (present with any contents, or absent - a missing
directory is not an error) and idempotent: one call leaves tmp/ existing
and empty, and a second call leaves the same state. -/
theorem clear_tmp_directory_idempotent (tmp : Option (List String)) :
    clear_tmp_directory tmp = some []
    ∧ clear_tmp_directory (clear_tmp_directory tmp) = clear_tmp_directory tmp :=
  ⟨rfl, rfl⟩

/-- C4: SaveProjectErrorMixin.save never propagates an exception raised by
the underlying save: it always returns normally, and when the underlying
save fails it appends exactly one ProjectError under the same project,
carrying the entity class name, the field snapshot, the exception message
and the formatted traceback. -/
theorem save_with_error_capture_spec (projectId className : String)
    (snapshot : List (String × Value)) (superSave : Except PyException Unit)
    (errors : List ProjectErrorRec) :
    (save_with_error_capture projectId className snapshot superSave errors).1 = .ok ()
    ∧ ∀ e : PyException, superSave = .error e →
        (save_with_error_capture projectId className snapshot superSave errors).2
          = errors ++ [⟨projectId, className, snapshot, e.message, format_tb e.frames⟩] := by
  cases superSave with
  | ok u => exact ⟨rfl, fun e he => by cases he⟩
  | error e0 =>
      refine ⟨rfl, fun e he => ?_⟩
      cases he
      rfl

/-- Witness for C4: a concrete failing save on a CodebaseResource snapshot
produces exactly the expected ProjectError row. -/
theorem save_with_error_capture_spec_witness :
    (save_with_error_capture "project-1" "CodebaseResource" [("path", Value.str "a.c")]
        (.error ⟨"database error", ["frame-1\n"]⟩) []).2
      = [⟨"project-1", "CodebaseResource", [("path", Value.str "a.c")],
          "database error", format_tb ["frame-1\n"]⟩] :=
  (save_with_error_capture_spec "project-1" "CodebaseResource" [("path", Value.str "a.c")]
      (.error ⟨"database error", ["frame-1\n"]⟩) []).2 ⟨"database error", ["frame-1\n"]⟩ rfl

theorem earliestByCreated_eq_none_iff (l : List RunRec) :
    earliestByCreated l = none ↔ l = [] := by
  induction l with
  | nil => simp [earliestByCreated]
  | cons r rest ih =>
      simp only [earliestByCreated]
      cases h : earliestByCreated rest with
      | none => simp
      | some b =>
          constructor
          · intro hco
            by_cases hle : r.created_date ≤ b.created_date <;> simp [hle] at hco
          · intro hco
            cases hco

theorem earliestByCreated_mem (l : List RunRec) (r : RunRec)
    (h : earliestByCreated l = some r) : r ∈ l := by
  induction l generalizing r with
  | nil => cases h
  | cons x rest ih =>
      simp only [earliestByCreated] at h
      split at h
      · cases h
        exact List.mem_cons_self _ _
      · rename_i b hrest
        split at h
        · cases h
          exact List.mem_cons_self _ _
        · cases h
          exact List.mem_cons_of_mem _ (ih _ hrest)

theorem earliestByCreated_min (l : List RunRec) (r : RunRec)
    (h : earliestByCreated l = some r) :
    ∀ x ∈ l, r.created_date ≤ x.created_date := by
  induction l generalizing r with
  | nil => cases h
  | cons x rest ih =>
      intro y hy
      simp only [earliestByCreated] at h
      split at h
      · rename_i hrest
        cases h
        rcases List.mem_cons.mp hy with hy | hy
        · rw [hy]
        · exact absurd hy (by
            simp [(earliestByCreated_eq_none_iff rest).mp hrest])
      · rename_i b hrest
        split at h
        · rename_i hle
          cases h
          rcases List.mem_cons.mp hy with hy | hy
          · rw [hy]
          · exact le_trans hle (ih _ hrest y hy)
        · rename_i hle
          cases h
          rcases List.mem_cons.mp hy with hy | hy
          · rw [hy]
            exact le_of_not_le hle
          · exact ih _ hrest y hy

/-- C5: Project.get_next_run returns none exactly when every run of the
project has a task id assigned (in particular when the project has no
runs), and any returned run belongs to the project, has no task id, and
has minimal creation time among the project's unclaimed runs. -/
theorem get_next_run_spec (projectId : Nat) (runs : List RunRec) :
    (get_next_run projectId runs = none ↔
      ∀ r ∈ runs, r.project = projectId → r.task_id ≠ none)
    ∧ ∀ r : RunRec, get_next_run projectId runs = some r →
        r ∈ runs ∧ r.project = projectId ∧ r.task_id = none ∧
        ∀ x ∈ runs, x.project = projectId → x.task_id = none →
          r.created_date ≤ x.created_date := by
  constructor
  · rw [get_next_run, earliestByCreated_eq_none_iff, List.eq_nil_iff_forall_not_mem]
    constructor
    · intro h r hr hp
      intro htask
      exact h r (by simp [List.mem_filter, hr, hp, Option.isNone_iff_eq_none, htask])
    · intro h r hr
      simp only [List.mem_filter, beq_iff_eq, Option.isNone_iff_eq_none] at hr
      exact h r hr.1.1 hr.1.2 hr.2
  · intro r h
    have hmem := earliestByCreated_mem _ _ h
    have hmin := earliestByCreated_min _ _ h
    simp only [List.mem_filter, beq_iff_eq, Option.isNone_iff_eq_none] at hmem
    refine ⟨hmem.1.1, hmem.1.2, hmem.2, ?_⟩
    intro x hx hxp hxt
    exact hmin x (by simp [List.mem_filter, hx, hxp, Option.isNone_iff_eq_none, hxt])

/-- Witness for C5: with two unclaimed runs created at times 10 and 20 and
one claimed run, get_next_run returns the run created at time 10, which is
unclaimed and no later than the other unclaimed run. -/
theorem get_next_run_spec_witness :
    (⟨1, 0, 10, none⟩ : RunRec) ∈
        [(⟨1, 0, 10, none⟩ : RunRec), ⟨2, 0, 20, none⟩, ⟨3, 0, 5, some 9⟩]
    ∧ (⟨1, 0, 10, none⟩ : RunRec).task_id = none
    ∧ (⟨1, 0, 10, none⟩ : RunRec).created_date ≤ (⟨2, 0, 20, none⟩ : RunRec).created_date :=
  have h := (get_next_run_spec 0
      [⟨1, 0, 10, none⟩, ⟨2, 0, 20, none⟩, ⟨3, 0, 5, some 9⟩]).2
      ⟨1, 0, 10, none⟩ (by decide)
  ⟨h.1, h.2.2.1, h.2.2.2 ⟨2, 0, 20, none⟩ (by decide) (by decide) (by decide)⟩

theorem apply_scan_results_unchanged (m : List (String × Value))
    (resource : String → Value) (f : String)
    (hf : ∀ v : Value, (f, v) ∈ m → v.truthy = false) :
    apply_scan_results resource m f = resource f := by
  induction m generalizing resource with
  | nil => rfl
  | cons kv rest ih =>
      obtain ⟨k, v⟩ := kv
      simp only [apply_scan_results]
      rw [ih _ (fun w hw => hf w (List.mem_cons_of_mem _ hw))]
      by_cases hkf : k = f
      · subst hkf
        rw [hf v (List.mem_cons_self _ _)]
        simp [setattr]
      · split
        · simp only [setattr]
          rw [if_neg (fun h : f = k => hkf h.symm)]
        · rfl

theorem apply_scan_results_sets (m : List (String × Value))
    (resource : String → Value) (f : String) (v : Value)
    (hnd : (m.map Prod.fst).Nodup) (hmem : (f, v) ∈ m) (ht : v.truthy = true)
    (hfield : f ∈ codebaseResourceFields) :
    apply_scan_results resource m f = v := by
  induction m generalizing resource with
  | nil => cases hmem
  | cons kv rest ih =>
      obtain ⟨k, w⟩ := kv
      simp only [List.map, List.nodup_cons] at hnd
      rcases List.mem_cons.mp hmem with hh | hh
      · rw [Prod.mk.injEq] at hh
        obtain ⟨hk, hw⟩ := hh
        subst hk
        subst hw
        simp only [apply_scan_results, ht, decide_eq_true hfield, Bool.and_self, if_pos]
        rw [apply_scan_results_unchanged]
        · simp [setattr]
        · intro w hw
          exact absurd (List.mem_map_of_mem Prod.fst hw) hnd.1
      · simp only [apply_scan_results]
        exact ih _ hnd.2 hh

/-- C3: CodebaseResource.set_scan_results overwrites each recognized field
that occurs in the scan-result mapping with a truthy value, and leaves a
field unchanged whenever every occurrence of that field in the mapping is
falsy (in particular when the field is absent). -/
theorem set_scan_results_spec (resource : String → Value)
    (m : List (String × Value)) (saveFlag : Bool) (f : String) :
    ((∀ v : Value, (f, v) ∈ m → v.truthy = false) →
        (set_scan_results resource m saveFlag).1 f = resource f)
    ∧ ∀ v : Value, (m.map Prod.fst).Nodup → (f, v) ∈ m → v.truthy = true →
        f ∈ codebaseResourceFields → (set_scan_results resource m saveFlag).1 f = v :=
  ⟨fun hf => apply_scan_results_unchanged m resource f hf,
   fun v hnd hmem ht hfield => apply_scan_results_sets m resource f v hnd hmem ht hfield⟩

/-- Witness for C3: on a resource whose licenses field holds a non-empty
detection list, a mapping with an empty licenses list leaves the field
untouched, while a mapping with a non-empty licenses list overwrites it. -/
theorem set_scan_results_spec_witness :
    (set_scan_results
        (fun n => if n = "licenses" then Value.list [Value.dict [("key", Value.str "gpl-2.0")]]
                  else Value.pynone)
        [("licenses", Value.list [])] false).1 "licenses"
      = Value.list [Value.dict [("key", Value.str "gpl-2.0")]]
    ∧ (set_scan_results
        (fun n => if n = "licenses" then Value.list [Value.dict [("key", Value.str "gpl-2.0")]]
                  else Value.pynone)
        [("licenses", Value.list [Value.dict [("key", Value.str "mit")]])] false).1 "licenses"
      = Value.list [Value.dict [("key", Value.str "mit")]] := by
  constructor
  · have h := (set_scan_results_spec
        (fun n => if n = "licenses" then Value.list [Value.dict [("key", Value.str "gpl-2.0")]]
                  else Value.pynone)
        [("licenses", Value.list [])] false "licenses").1
      (by
        intro v hv
        simp only [List.mem_singleton, Prod.mk.injEq] at hv
        rw [hv.2]
        rfl)
    rw [h, if_pos rfl]
  · exact (set_scan_results_spec
        (fun n => if n = "licenses" then Value.list [Value.dict [("key", Value.str "gpl-2.0")]]
                  else Value.pynone)
        [("licenses", Value.list [Value.dict [("key", Value.str "mit")]])] false "licenses").2
      (Value.list [Value.dict [("key", Value.str "mit")]])
      (by simp) (by simp) rfl (by decide)

/-- C9: the field set recognized by set_scan_results is the full
CodebaseResource field set, not only the seven scan fields: a mapping with
a truthy value under the non-scan field name status overwrites the status
attribute of any resource. -/
theorem set_scan_results_full_field_set (resource : String → Value) :
    (set_scan_results resource [("status", Value.str "scanned")] false).1 "status"
      = Value.str "scanned"
    ∧ "status" ∈ codebaseResourceFields
    ∧ "status" ∉ scanFieldNames := by
  refine ⟨?_, by decide, by decide⟩
  show apply_scan_results resource [("status", Value.str "scanned")] "status"
    = Value.str "scanned"
  simp only [apply_scan_results]
  rw [if_pos (by decide : ((Value.str "scanned").truthy
    && decide ("status" ∈ codebaseResourceFields)) = true)]
  simp [setattr]

theorem mem_mkdir_parents_exist_ok_self (path : String) (fs : List String) :
    path ∈ mkdir_parents_exist_ok path fs := by
  rw [mkdir_parents_exist_ok]
  split
  · assumption
  · exact List.mem_append_right _ (List.mem_singleton.mpr rfl)

theorem mem_mkdir_parents_exist_ok_mono (path x : String) (fs : List String)
    (h : x ∈ fs) : x ∈ mkdir_parents_exist_ok path fs := by
  rw [mkdir_parents_exist_ok]
  split
  · exact h
  · exact List.mem_append_left _ h

theorem mem_setup_work_directory (workDir : String) (fs : List String) :
    ∀ sub ∈ WORK_DIRECTORIES, (workDir ++ "/" ++ sub) ∈ setup_work_directory workDir fs := by
  intro sub hsub
  simp only [WORK_DIRECTORIES, List.mem_cons, List.not_mem_nil, or_false] at hsub
  simp only [setup_work_directory, WORK_DIRECTORIES, List.foldl]
  rcases hsub with h | h | h | h <;> subst h
  · exact mem_mkdir_parents_exist_ok_mono _ _ _
      (mem_mkdir_parents_exist_ok_mono _ _ _
        (mem_mkdir_parents_exist_ok_mono _ _ _
          (mem_mkdir_parents_exist_ok_self _ _)))
  · exact mem_mkdir_parents_exist_ok_mono _ _ _
      (mem_mkdir_parents_exist_ok_mono _ _ _
        (mem_mkdir_parents_exist_ok_self _ _))
  · exact mem_mkdir_parents_exist_ok_mono _ _ _
      (mem_mkdir_parents_exist_ok_self _ _)
  · exact mem_mkdir_parents_exist_ok_self _ _

/-- Counterexample for C2: saving a project named acme, then saving a
second instance with the same name and a fresh uuid, fails with the
duplicate-name IntegrityError as claimed, but the second instance's work
directory (here its input/ subdirectory under the new uuid-suffixed path)
is created on disk by the failed save: the filesystem state is changed on
error, contradicting the claim. -/
theorem project_save_duplicate_counterexample :
    (project_save ⟨"bbbbbbbb-2222", "acme", ""⟩
        (project_save ⟨"aaaaaaaa-1111", "acme", ""⟩ ⟨[], []⟩).2.1).2.2
      = Except.error "IntegrityError"
    ∧ "/workspace/projects/acme-bbbbbbbb/input"
        ∉ (project_save ⟨"aaaaaaaa-1111", "acme", ""⟩ ⟨[], []⟩).2.1.fs
    ∧ "/workspace/projects/acme-bbbbbbbb/input"
        ∈ (project_save ⟨"bbbbbbbb-2222", "acme", ""⟩
            (project_save ⟨"aaaaaaaa-1111", "acme", ""⟩ ⟨[], []⟩).2.1).2.1.fs
    ∧ (project_save ⟨"bbbbbbbb-2222", "acme", ""⟩
          (project_save ⟨"aaaaaaaa-1111", "acme", ""⟩ ⟨[], []⟩).2.1).2.1.fs
        ≠ (project_save ⟨"aaaaaaaa-1111", "acme", ""⟩ ⟨[], []⟩).2.1.fs :=
  ⟨rfl, by decide, by decide, by decide⟩

/-- C2 (amended): re-invoking project creation with an already-used name
fails with the duplicate-name IntegrityError and persists no second row,
but the second instance's work directory and its four subdirectories ARE
created on disk before the failing insert, so the filesystem is changed on
error. -/
theorem project_save_duplicate_spec (st : WorldState) (p : ProjectRec)
    (hwd : p.work_directory = "") (hdup : ∃ q ∈ st.db, q.name = p.name) :
    (project_save p st).2.2 = .error "IntegrityError"
    ∧ (project_save p st).2.1.db = st.db
    ∧ ∀ sub ∈ WORK_DIRECTORIES,
        (get_project_work_directory p ++ "/" ++ sub) ∈ (project_save p st).2.1.fs := by
  obtain ⟨q, hq, hname⟩ := hdup
  have hins : django_insert_project
      { p with work_directory := get_project_work_directory p } st.db
      = .error "IntegrityError" := by
    rw [django_insert_project, if_pos]
    exact List.any_eq_true.mpr ⟨q, hq, by simp [hname]⟩
  refine ⟨?_, ?_, ?_⟩
  · simp [project_save, hwd, hins]
  · simp [project_save, hwd, hins]
  · intro sub hsub
    simp only [project_save, hwd]
    simp only [beq_self_eq_true, if_true, hins]
    exact mem_setup_work_directory _ _ _ hsub

/-- Witness for C2 (amended): a concrete duplicate-name save fails, leaves
the table unchanged and creates the second work directory. -/
theorem project_save_duplicate_spec_witness :
    (project_save ⟨"cccccccc-3333", "demo", ""⟩
        ⟨[⟨"dddddddd-4444", "demo", "/workspace/projects/demo-dddddddd"⟩], []⟩).2.2
      = .error "IntegrityError"
    ∧ (project_save ⟨"cccccccc-3333", "demo", ""⟩
        ⟨[⟨"dddddddd-4444", "demo", "/workspace/projects/demo-dddddddd"⟩], []⟩).2.1.db
      = [⟨"dddddddd-4444", "demo", "/workspace/projects/demo-dddddddd"⟩]
    ∧ (get_project_work_directory ⟨"cccccccc-3333", "demo", ""⟩ ++ "/" ++ "tmp")
      ∈ (project_save ⟨"cccccccc-3333", "demo", ""⟩
          ⟨[⟨"dddddddd-4444", "demo", "/workspace/projects/demo-dddddddd"⟩], []⟩).2.1.fs :=
  have h := project_save_duplicate_spec
    ⟨[⟨"dddddddd-4444", "demo", "/workspace/projects/demo-dddddddd"⟩], []⟩
    ⟨"cccccccc-3333", "demo", ""⟩ rfl
    ⟨⟨"dddddddd-4444", "demo", "/workspace/projects/demo-dddddddd"⟩, by decide, rfl⟩
  ⟨h.1, h.2.1, h.2.2 "tmp" (by decide)⟩

theorem dict_get_dict_set_self (m : List (String × Value)) (k : String) (v : Value) :
    dict_get (dict_set m k v) k = some v := by
  induction m with
  | nil => simp [dict_set, dict_get]
  | cons kw rest ih =>
      obtain ⟨k0, w⟩ := kw
      by_cases h : k0 = k
      · simp [dict_set, dict_get, h]
      · simp only [dict_set, if_neg h, dict_get]
        exact ih

/-- C6: DiscoveredPackage.create_from_data keeps exactly the entries of the
(qualifier-normalized) mapping whose key is a recognized package field and
whose value is truthy; a present truthy qualifiers entry is looked up in
the mutated mapping as its normalized form; the new row is appended to the
table with no uniqueness check, so a second call with the same data yields
a second, distinct row. -/
theorem create_from_data_spec (project : String) (d1 d2 : List (String × Value))
    (db : List PackageRec) :
    (∀ f : String, ∀ v : Value,
        (f, v) ∈ (create_from_data project d1 db).2.1.fields ↔
          ((f, v) ∈ (create_from_data project d1 db).1
            ∧ f ∈ discoveredPackageFields ∧ v.truthy = true))
    ∧ (∀ q : Value, dict_get d1 "qualifiers" = some q → q.truthy = true →
        dict_get (create_from_data project d1 db).1 "qualifiers"
          = some (normalize_qualifiers_value q))
    ∧ (create_from_data project d1 db).2.2 = db ++ [(create_from_data project d1 db).2.1]
    ∧ (create_from_data project d2 (create_from_data project d1 db).2.2).2.2
        = db ++ [(create_from_data project d1 db).2.1,
            (create_from_data project d2 (create_from_data project d1 db).2.2).2.1]
    ∧ (create_from_data project d1 db).2.1.uuid
        ≠ (create_from_data project d2 (create_from_data project d1 db).2.2).2.1.uuid := by
  refine ⟨?_, ?_, rfl, by simp [create_from_data], by simp [create_from_data]⟩
  · intro f v
    simp only [create_from_data, List.mem_filter, Bool.and_eq_true, decide_eq_true_iff]
  · intro q hq hqt
    simp only [create_from_data, hq, hqt, if_true]
    exact dict_get_dict_set_self d1 "qualifiers" (normalize_qualifiers_value q)

/-- Witness for C6: concrete package data with qualifiers to normalize, an
unrecognized key and a falsy value. -/
theorem create_from_data_spec_witness :
    (("name", Value.str "pkg") ∈
        (create_from_data "p1"
          [("qualifiers", Value.dict [("classifier", Value.str "SOURCES")]),
           ("name", Value.str "pkg"), ("bogus", Value.str "z"), ("version", Value.str "")]
          []).2.1.fields
      ↔ (("name", Value.str "pkg") ∈
          (create_from_data "p1"
            [("qualifiers", Value.dict [("classifier", Value.str "SOURCES")]),
             ("name", Value.str "pkg"), ("bogus", Value.str "z"), ("version", Value.str "")]
            []).1
        ∧ "name" ∈ discoveredPackageFields ∧ (Value.str "pkg").truthy = true))
    ∧ dict_get
        (create_from_data "p1"
          [("qualifiers", Value.dict [("classifier", Value.str "SOURCES")]),
           ("name", Value.str "pkg"), ("bogus", Value.str "z"), ("version", Value.str "")]
          []).1 "qualifiers"
      = some (normalize_qualifiers_value (Value.dict [("classifier", Value.str "SOURCES")])) :=
  have h := create_from_data_spec "p1"
    [("qualifiers", Value.dict [("classifier", Value.str "SOURCES")]),
     ("name", Value.str "pkg"), ("bogus", Value.str "z"), ("version", Value.str "")]
    [("qualifiers", Value.dict [("classifier", Value.str "SOURCES")]),
     ("name", Value.str "pkg"), ("bogus", Value.str "z"), ("version", Value.str "")]
    []
  ⟨h.1 "name" (Value.str "pkg"),
   h.2.1 (Value.dict [("classifier", Value.str "SOURCES")]) rfl rfl⟩

/-- C10: create_from_data mutates the caller's package_data mapping: when a
truthy qualifiers entry is present, the mapping afterwards holds the
normalized value (an encoded string whenever the qualifiers are a truthy
mapping or string) in place of the original entry; with the qualifiers
entry absent or falsy, the mapping is returned unmodified. -/
theorem create_from_data_mutates_argument (project : String)
    (d : List (String × Value)) (db : List PackageRec) :
    (∀ q : Value, dict_get d "qualifiers" = some q → q.truthy = true →
        (create_from_data project d db).1
          = dict_set d "qualifiers" (normalize_qualifiers_value q)
        ∧ ((value_to_qualifiers q).truthy = true →
            ∃ s : String, normalize_qualifiers_value q = Value.str s))
    ∧ (dict_get d "qualifiers" = none → (create_from_data project d db).1 = d)
    ∧ (∀ q : Value, dict_get d "qualifiers" = some q → q.truthy = false →
        (create_from_data project d db).1 = d) := by
  refine ⟨?_, ?_, ?_⟩
  · intro q hq hqt
    constructor
    · simp [create_from_data, hq, hqt]
    · intro hvt
      simp only [normalize_qualifiers_value, normalize_qualifiers, hvt, if_true]
      exact ⟨_, rfl⟩
  · intro hq
    simp [create_from_data, hq]
  · intro q hq hqt
    simp [create_from_data, hq, hqt]

/-- Witness for C10: a mapping with a truthy qualifiers entry is mutated to
hold the normalized encoded string; a mapping without a qualifiers entry is
returned unmodified. -/
theorem create_from_data_mutates_argument_witness :
    (create_from_data "p2" [("qualifiers", Value.dict [("arch", Value.str "x86")]),
        ("type", Value.str "rpm")] []).1
      = dict_set [("qualifiers", Value.dict [("arch", Value.str "x86")]),
          ("type", Value.str "rpm")] "qualifiers"
          (normalize_qualifiers_value (Value.dict [("arch", Value.str "x86")]))
    ∧ (∃ s : String,
        normalize_qualifiers_value (Value.dict [("arch", Value.str "x86")]) = Value.str s)
    ∧ (create_from_data "p2" [("type", Value.str "rpm")] []).1 = [("type", Value.str "rpm")] :=
  have h1 := (create_from_data_mutates_argument "p2"
    [("qualifiers", Value.dict [("arch", Value.str "x86")]), ("type", Value.str "rpm")] []).1
    (Value.dict [("arch", Value.str "x86")]) rfl rfl
  have h2 := (create_from_data_mutates_argument "p2" [("type", Value.str "rpm")] []).2.1 rfl
  ⟨h1.1, h1.2 rfl, h2⟩

theorem stringMk_data (s : String) : String.mk s.data = s := by
  cases s
  rfl

theorem stringMk_inj (l m : List Char) (h : String.mk l = String.mk m) : l = m := by
  have h2 := congrArg String.data h
  simpa using h2

theorem stringMk_ne_empty (l : List Char) (h : l ≠ []) : String.mk l ≠ "" := by
  intro hc
  have h2 := congrArg String.data hc
  simp at h2
  exact h h2

theorem splitOnChar_cons_ne (sep c : Char) (l : List Char) (hc : ¬c = sep) :
    splitOnChar sep (c :: l)
      = match splitOnChar sep l with
        | [] => [[c]]
        | g :: gs => (c :: g) :: gs := by
  simp only [splitOnChar, if_neg hc]

theorem splitOnChar_of_not_mem (sep : Char) (x : List Char) (hx : sep ∉ x) :
    splitOnChar sep x = [x] := by
  induction x with
  | nil => rfl
  | cons c rest ih =>
      have hc : ¬c = sep := fun h => hx (h ▸ List.mem_cons_self c rest)
      have hrest : sep ∉ rest := fun h => hx (List.mem_cons_of_mem c h)
      rw [splitOnChar_cons_ne sep c rest hc, ih hrest]

theorem splitOnChar_append (sep : Char) (x ys : List Char) (hx : sep ∉ x) :
    splitOnChar sep (x ++ sep :: ys) = x :: splitOnChar sep ys := by
  induction x with
  | nil => simp [splitOnChar]
  | cons c rest ih =>
      have hc : ¬c = sep := fun h => hx (h ▸ List.mem_cons_self c rest)
      have hrest : sep ∉ rest := fun h => hx (List.mem_cons_of_mem c h)
      rw [List.cons_append, splitOnChar_cons_ne sep c _ hc, ih hrest]

theorem splitOnChar_joinSep (sep : Char) (pieces : List (List Char))
    (hne : pieces ≠ []) (h : ∀ x ∈ pieces, sep ∉ x) :
    splitOnChar sep (joinSep sep pieces) = pieces := by
  induction pieces with
  | nil => exact absurd rfl hne
  | cons x rest ih =>
      cases rest with
      | nil =>
          simp only [joinSep]
          exact splitOnChar_of_not_mem sep x (h x (List.mem_cons_self _ _))
      | cons y rest2 =>
          simp only [joinSep]
          rw [splitOnChar_append sep x _ (h x (List.mem_cons_self _ _))]
          rw [ih (by simp) (fun z hz => h z (List.mem_cons_of_mem _ hz))]

theorem joinSep_cons_ne_nil (sep : Char) (x : List Char) (rest : List (List Char))
    (hx : x ≠ []) : joinSep sep (x :: rest) ≠ [] := by
  cases rest with
  | nil => exact hx
  | cons y rest2 =>
      simp only [joinSep]
      simp

/-- Character-level cleanliness of a qualifier pair: neither component
holds a separator character used by the encoded form. -/
def cleanPair (p : String × String) : Prop :=
  '&' ∉ p.1.data ∧ '=' ∉ p.1.data ∧ '&' ∉ p.2.data ∧ '=' ∉ p.2.data

theorem parsePairs_encodePairs (ps : List (String × String)) (hne : ps ≠ [])
    (h : ∀ p ∈ ps, cleanPair p) : parsePairs (encodePairs ps) = ps := by
  have hdata : (encodePairs ps).data
      = joinSep '&' (ps.map (fun p => p.1.data ++ '=' :: p.2.data)) := rfl
  rw [parsePairs, hdata]
  rw [splitOnChar_joinSep '&' _ (by simpa using hne) ?hclean]
  case hclean =>
    intro x hx
    rcases List.mem_map.mp hx with ⟨p, hp, hpx⟩
    obtain ⟨h1, _, h3, _⟩ := h p hp
    rw [← hpx]
    simp only [List.mem_append, List.mem_cons]
    rintro (hc | hc | hc)
    · exact h1 hc
    · cases hc
    · exact h3 hc
  rw [List.map_map]
  have hid : ∀ p ∈ ps,
      ((fun piece =>
          match splitOnChar '=' piece with
          | [] => ("", "")
          | k :: rest => (String.mk k, String.mk (joinSep '=' rest)))
        ∘ fun p : String × String => p.1.data ++ '=' :: p.2.data) p = id p := by
    intro p hp
    obtain ⟨_, h2, _, h4⟩ := h p hp
    simp only [Function.comp]
    rw [splitOnChar_append '=' _ _ h2, splitOnChar_of_not_mem '=' _ h4]
    simp only [joinSep, id]
  rw [List.map_congr_left hid, List.map_id]

theorem normPairs_eq_self (ps : List (String × String))
    (h : ∀ p ∈ ps, normKey p.1 = p.1 ∧ ¬p.1 = "" ∧ ¬p.2 = "") :
    normPairs ps = ps := by
  rw [normPairs]
  have hmap : ps.map (fun p => (normKey p.1, p.2)) = ps.map id := by
    apply List.map_congr_left
    intro p hp
    rw [(h p hp).1, id, Prod.mk.eta]
  rw [hmap, List.map_id]
  rw [List.filter_eq_self]
  intro p hp
  obtain ⟨_, h2, h3⟩ := h p hp
  simp [h2, h3]

theorem hasKey_eq_true_iff (k : String) (l : List (String × String)) :
    hasKey k l = true ↔ k ∈ l.map Prod.fst := by
  induction l with
  | nil => simp [hasKey]
  | cons q rest ih =>
      by_cases h : q.1 = k
      · simp [hasKey, h]
      · simp only [hasKey, if_neg h, List.map, List.mem_cons, ih]
        constructor
        · exact Or.inr
        · rintro (hc | hc)
          · exact absurd hc.symm h
          · exact hc

theorem keys_upsert (acc : List (String × String)) (p : String × String) :
    (upsert acc p).map Prod.fst
      = if hasKey p.1 acc then acc.map Prod.fst else acc.map Prod.fst ++ [p.1] := by
  rw [upsert]
  split
  · rw [List.map_map]
    apply List.map_congr_left
    intro q hq
    simp only [Function.comp]
    split <;> rfl
  · rw [List.map_append]
    rfl

theorem nodup_keys_upsert (acc : List (String × String)) (p : String × String)
    (h : (acc.map Prod.fst).Nodup) : ((upsert acc p).map Prod.fst).Nodup := by
  rw [keys_upsert]
  split
  · exact h
  · refine h.append (List.nodup_singleton _) (List.disjoint_singleton.mpr ?_)
    rename_i hk
    rw [← hasKey_eq_true_iff]
    simp [hk]

theorem nodup_keys_foldl_upsert (l acc : List (String × String))
    (h : (acc.map Prod.fst).Nodup) :
    ((List.foldl upsert acc l).map Prod.fst).Nodup := by
  induction l generalizing acc with
  | nil => exact h
  | cons p rest ih =>
      rw [List.foldl_cons]
      exact ih _ (nodup_keys_upsert acc p h)

theorem nodup_keys_dedupPairs (ps : List (String × String)) :
    ((dedupPairs ps).map Prod.fst).Nodup :=
  nodup_keys_foldl_upsert ps [] List.nodup_nil

theorem mem_upsert_sub (acc : List (String × String)) (p x : String × String)
    (hx : x ∈ upsert acc p) : x ∈ acc ∨ x = p := by
  rw [upsert] at hx
  split at hx
  · rcases List.mem_map.mp hx with ⟨q, hq, hqx⟩
    by_cases hqp : q.1 = p.1
    · right
      rw [← hqx]
      simp only [if_pos hqp]
      rw [hqp]
    · left
      rw [← hqx]
      simp only [if_neg hqp]
      exact hq
  · rcases List.mem_append.mp hx with hc | hc
    · exact Or.inl hc
    · exact Or.inr (List.mem_singleton.mp hc)

theorem mem_foldl_upsert (l acc : List (String × String)) (x : String × String)
    (hx : x ∈ List.foldl upsert acc l) : x ∈ acc ∨ x ∈ l := by
  induction l generalizing acc with
  | nil => exact Or.inl hx
  | cons p rest ih =>
      rw [List.foldl_cons] at hx
      rcases ih _ hx with hc | hc
      · rcases mem_upsert_sub acc p x hc with hc2 | hc2
        · exact Or.inl hc2
        · exact Or.inr (hc2 ▸ List.mem_cons_self _ _)
      · exact Or.inr (List.mem_cons_of_mem _ hc)

theorem mem_dedupPairs_sub (ps : List (String × String)) (x : String × String)
    (hx : x ∈ dedupPairs ps) : x ∈ ps := by
  rcases mem_foldl_upsert ps [] x hx with hc | hc
  · cases hc
  · exact hc

theorem foldl_upsert_eq_append (l acc : List (String × String))
    (h : ((acc ++ l).map Prod.fst).Nodup) :
    List.foldl upsert acc l = acc ++ l := by
  induction l generalizing acc with
  | nil => simp
  | cons p rest ih =>
      have hnot : hasKey p.1 acc = false := by
        rw [← Bool.not_eq_true, hasKey_eq_true_iff]
        intro hc
        rw [List.map_append, List.nodup_append] at h
        exact h.2.2 hc (by simp)
      have hupsert : upsert acc p = acc ++ [p] := by
        rw [upsert, hnot]
        simp
      rw [List.foldl_cons, hupsert, ih (acc ++ [p]) (by simpa using h)]
      simp

theorem dedupPairs_eq_self (ps : List (String × String))
    (h : (ps.map Prod.fst).Nodup) : dedupPairs ps = ps := by
  rw [dedupPairs, foldl_upsert_eq_append ps [] (by simpa using h)]
  rfl

theorem length_upsert_ge (acc : List (String × String)) (p : String × String) :
    acc.length ≤ (upsert acc p).length := by
  rw [upsert]
  split
  · simp
  · simp

theorem length_foldl_upsert_ge (l acc : List (String × String)) :
    acc.length ≤ (List.foldl upsert acc l).length := by
  induction l generalizing acc with
  | nil => exact le_refl _
  | cons p rest ih =>
      rw [List.foldl_cons]
      exact le_trans (length_upsert_ge acc p) (ih _)

theorem dedupPairs_ne_nil (ps : List (String × String)) (h : ps ≠ []) :
    dedupPairs ps ≠ [] := by
  cases ps with
  | nil => exact absurd rfl h
  | cons p rest =>
      rw [dedupPairs, List.foldl_cons]
      intro hc
      have h1 : (upsert [] p).length ≤ 0 := by
        rw [← List.length_eq_zero.mpr hc]
        exact length_foldl_upsert_ge rest (upsert [] p)
      rw [upsert] at h1
      simp [hasKey] at h1

/-- A qualifiers pair already in final form: its key is a fixed point of
key normalization, components are non-empty where required and free of the
separator characters of the encoded form. -/
def finalPair (x : String × String) : Prop :=
  normKey x.1 = x.1 ∧ ¬x.1 = "" ∧ ¬x.2 = ""
    ∧ '&' ∉ x.1.data ∧ '=' ∉ x.1.data ∧ '&' ∉ x.2.data ∧ '=' ∉ x.2.data

theorem normalize_roundtrip_core (F : List (String × String)) (hFne : F ≠ [])
    (hgoodF : ∀ x ∈ F, finalPair x) (hnodupF : (F.map Prod.fst).Nodup)
    (hsorted : List.Sorted keyLe F) :
    normalize_qualifiers (Qualifiers.str (encodePairs F)) = some (encodePairs F) := by
  have hcleanF : ∀ p ∈ F, cleanPair p := by
    intro p hp
    obtain ⟨_, _, _, c1, c2, c3, c4⟩ := hgoodF p hp
    exact ⟨c1, c2, c3, c4⟩
  have hsne : encodePairs F ≠ "" := by
    obtain ⟨f0, Frest, hFcons⟩ := List.exists_cons_of_ne_nil hFne
    rw [encodePairs]
    apply stringMk_ne_empty
    rw [hFcons]
    exact joinSep_cons_ne_nil '&' _ _ (by simp)
  have hstr : (Qualifiers.str (encodePairs F)).truthy = true := by
    simp [Qualifiers.truthy, hsne]
  simp only [normalize_qualifiers, hstr, if_true]
  rw [parsePairs_encodePairs F hFne hcleanF]
  rw [normPairs_eq_self F (fun p hp =>
    ⟨(hgoodF p hp).1, (hgoodF p hp).2.1, (hgoodF p hp).2.2.1⟩)]
  rw [dedupPairs_eq_self F hnodupF]
  rw [hsorted.insertionSort_eq]

/-- Counterexample for C7: percent-decoding of qualifier keys is not
idempotent. The key %2541 decodes in one pass to %41, so normalizing once
yields the string %41=x, but normalizing that string again decodes %41 to
A, lower-cased a, yielding a=x: normalizing the already-normalized encoded
string differs from normalizing once. -/
theorem normalize_qualifiers_not_idempotent :
    normalize_qualifiers (Qualifiers.dict [("%2541", "x")]) = some "%41=x"
    ∧ normalize_qualifiers (Qualifiers.str "%41=x") = some "a=x"
    ∧ normalize_qualifiers (Qualifiers.str "%41=x") ≠ some "%41=x" :=
  ⟨rfl, rfl, by decide⟩

/-- A qualifiers input pair for which normalization is stable: the
normalized key is itself a fixed point of key normalization (no nested
percent-escape), non-empty and free of the separator characters, and the
value is non-empty and free of the separator characters. -/
def goodQualifierPair (p : String × String) : Prop :=
  normKey (normKey p.1) = normKey p.1 ∧ ¬normKey p.1 = ""
    ∧ '&' ∉ (normKey p.1).data ∧ '=' ∉ (normKey p.1).data
    ∧ ¬p.2 = "" ∧ '&' ∉ p.2.data ∧ '=' ∉ p.2.data

instance (p : String × String) : Decidable (goodQualifierPair p) := by
  unfold goodQualifierPair
  infer_instance

/-- C7 (amended): qualifier normalization is a function of its input, hence
deterministic, and it is idempotent on every qualifiers mapping whose pairs
are stable under normalization (the normalized key has no nested
percent-escape and neither component is empty or holds a separator
character of the encoded form), such as the classifier SOURCES example; for
keys with nested percent-escapes a second normalization pass decodes
further and idempotence fails (see the counterexample). -/
theorem normalize_qualifiers_idempotent_on (ps : List (String × String))
    (hne : ps ≠ []) (h : ∀ p ∈ ps, goodQualifierPair p) :
    ∃ s : String, normalize_qualifiers (Qualifiers.dict ps) = some s
      ∧ normalize_qualifiers (Qualifiers.str s) = some s := by
  have htr : (Qualifiers.dict ps).truthy = true := by
    simp [Qualifiers.truthy, hne]
  refine ⟨encodePairs (List.insertionSort keyLe (dedupPairs (normPairs ps))), ?_, ?_⟩
  · simp only [normalize_qualifiers, htr, if_true]
  · have hmemF : ∀ x ∈ List.insertionSort keyLe (dedupPairs (normPairs ps)),
        ∃ q ∈ ps, x = (normKey q.1, q.2) := by
      intro x hx
      have hx2 : x ∈ dedupPairs (normPairs ps) :=
        (List.perm_insertionSort keyLe _).mem_iff.mp hx
      have hx3 : x ∈ normPairs ps := mem_dedupPairs_sub _ _ hx2
      rw [normPairs] at hx3
      have hx4 := (List.mem_filter.mp hx3).1
      rcases List.mem_map.mp hx4 with ⟨q, hq, hqx⟩
      exact ⟨q, hq, hqx.symm⟩
    have hgoodF : ∀ x ∈ List.insertionSort keyLe (dedupPairs (normPairs ps)),
        finalPair x := by
      intro x hx
      rcases hmemF x hx with ⟨q, hq, hxq⟩
      obtain ⟨g1, g2, g3, g4, g5, g6, g7⟩ := h q hq
      rw [hxq]
      exact ⟨g1, g2, g5, g3, g4, g6, g7⟩
    have hfilter : (ps.map (fun p => (normKey p.1, p.2))).filter
        (fun p => !(p.1 == "") && !(p.2 == "")) = ps.map (fun p => (normKey p.1, p.2)) := by
      rw [List.filter_eq_self]
      intro x hx
      rcases List.mem_map.mp hx with ⟨q, hq, hqx⟩
      obtain ⟨_, g2, _, _, g5, _, _⟩ := h q hq
      rw [← hqx]
      simp only [Bool.and_eq_true, Bool.not_eq_true']
      exact ⟨beq_eq_false_iff_ne.mpr g2, beq_eq_false_iff_ne.mpr g5⟩
    have hnp : normPairs ps ≠ [] := by
      rw [normPairs, hfilter]
      simp [hne]
    have hFne : List.insertionSort keyLe (dedupPairs (normPairs ps)) ≠ [] := by
      intro hc
      have hlen := List.length_insertionSort keyLe (dedupPairs (normPairs ps))
      rw [hc] at hlen
      exact dedupPairs_ne_nil _ hnp (List.length_eq_zero.mp hlen.symm)
    have hnodupF : ((List.insertionSort keyLe (dedupPairs (normPairs ps))).map
        Prod.fst).Nodup :=
      (((List.perm_insertionSort keyLe (dedupPairs (normPairs ps))).map
        Prod.fst).nodup_iff).mpr (nodup_keys_dedupPairs _)
    exact normalize_roundtrip_core _ hFne hgoodF hnodupF
      (List.sorted_insertionSort keyLe _)

/-- Witness for C7 (amended): the classifier SOURCES qualifiers normalize
to an encoded string that re-normalizes to itself. -/
theorem normalize_qualifiers_idempotent_on_witness :
    ∃ s : String, normalize_qualifiers (Qualifiers.dict [("classifier", "SOURCES")]) = some s
      ∧ normalize_qualifiers (Qualifiers.str s) = some s :=
  normalize_qualifiers_idempotent_on [("classifier", "SOURCES")] (by decide) (by decide)
